import Mathlib

/-!
# Verification of the git-go object store core (src/cmd/mygit/main.go)

A shallow embedding of the object model of `src/cmd/mygit/main.go`:
blob/tree/commit serialization, SHA-1 content addressing, the object
store writes, the recursive directory hashing (`hash_dir`), commit
construction (`commit_tree`), and the `ls-tree` payload parser.

Bytes are modelled as `Nat` (values < 256 in practice), byte strings as
`List Nat`.  Go strings are byte strings; all literals in the program
are ASCII, so `String.toList` + `Char.toNat` gives the exact bytes.

The zlib compression layer (`compress/zlib`) is a stdlib inverse pair
around storage and is not modelled: the store maps a digest to the
*serialized* (pre-compression) bytes.  `crypto/sha1` is modelled by a
full executable implementation of SHA-1 below, validated against the
standard test vector for "abc" and the well-known git blob digest of
"hello\nworld".
-/

set_option maxRecDepth 100000
set_option maxHeartbeats 4000000

/-- ASCII bytes of a string literal. -/
def strB (s : String) : List Nat := s.toList.map Char.toNat

/-! ## SHA-1 (crypto/sha1), executable over `Nat` with explicit mod 2^32 -/

/-- Truncate to a 32-bit word. -/
def w32 (n : Nat) : Nat := n % 4294967296

/-- Left-rotate a 32-bit word by `s` bits. -/
def rotl32 (s n : Nat) : Nat := (n * 2 ^ s + n / 2 ^ (32 - s)) % 4294967296

/-- Big-endian 4-byte encoding of a 32-bit word. -/
def be4 (n : Nat) : List Nat :=
  [n / 16777216 % 256, n / 65536 % 256, n / 256 % 256, n % 256]

/-- Big-endian 8-byte encoding of a 64-bit value. -/
def be8 (n : Nat) : List Nat := be4 (n / 4294967296 % 4294967296) ++ be4 n

/-- Group bytes into big-endian 32-bit words (input length divisible by 4). -/
def toWords : List Nat → List Nat
  | a :: b :: c :: d :: rest => (((a * 256 + b) * 256 + c) * 256 + d) :: toWords rest
  | _ => []

/-- Extend the 16-word block to the 80-word message schedule. -/
def extendLoop : Nat → List Nat → List Nat
  | 0, acc => acc
  | f + 1, acc =>
    let n := acc.length
    let w := rotl32 1 (Nat.xor (Nat.xor (acc.getD (n - 3) 0) (acc.getD (n - 8) 0))
                               (Nat.xor (acc.getD (n - 14) 0) (acc.getD (n - 16) 0)))
    extendLoop f (acc ++ [w])

def schedule80 (ws : List Nat) : List Nat := extendLoop 64 ws

/-- The 80 compression rounds; state is `(a, b, c, d, e)`. -/
def compressLoop : List Nat → Nat → Nat × Nat × Nat × Nat × Nat → Nat × Nat × Nat × Nat × Nat
  | [], _, st => st
  | w :: ws, i, (a, b, c, d, e) =>
    let f :=
      if i < 20 then Nat.lor (Nat.land b c) (Nat.land (4294967295 - b) d)
      else if i < 40 then Nat.xor (Nat.xor b c) d
      else if i < 60 then Nat.lor (Nat.lor (Nat.land b c) (Nat.land b d)) (Nat.land c d)
      else Nat.xor (Nat.xor b c) d
    let k :=
      if i < 20 then 1518500249
      else if i < 40 then 1859775393
      else if i < 60 then 2400959708
      else 3395469782
    let temp := (rotl32 5 a + f + e + k + w) % 4294967296
    compressLoop ws (i + 1) (temp, a, rotl32 30 b, c, d)

/-- Process one 64-byte block. -/
def processBlock (h : Nat × Nat × Nat × Nat × Nat) (block : List Nat) :
    Nat × Nat × Nat × Nat × Nat :=
  let (h0, h1, h2, h3, h4) := h
  let (a, b, c, d, e) := compressLoop (schedule80 (toWords block)) 0 (h0, h1, h2, h3, h4)
  ((h0 + a) % 4294967296, (h1 + b) % 4294967296, (h2 + c) % 4294967296,
   (h3 + d) % 4294967296, (h4 + e) % 4294967296)

/-- Fold over the 64-byte blocks of a padded message (fuel-driven). -/
def sha1Loop : Nat → Nat × Nat × Nat × Nat × Nat → List Nat → Nat × Nat × Nat × Nat × Nat
  | 0, h, _ => h
  | fuel + 1, h, bytes =>
    match bytes with
    | [] => h
    | _ :: _ => sha1Loop fuel (processBlock h (bytes.take 64)) (bytes.drop 64)

/-- SHA-1 padding: `0x80`, zeros to 56 mod 64, then 8-byte big-endian bit length. -/
def sha1Pad (msg : List Nat) : List Nat :=
  msg ++ [128] ++ List.replicate ((119 - msg.length % 64) % 64) 0 ++ be8 (msg.length * 8)

/-- SHA-1 of a byte string: the 20-byte digest. -/
def sha1 (msg : List Nat) : List Nat :=
  let padded := sha1Pad msg
  let (h0, h1, h2, h3, h4) :=
    sha1Loop padded.length (1732584193, 4023233417, 2562383102, 271733878, 3285377520) padded
  be4 h0 ++ be4 h1 ++ be4 h2 ++ be4 h3 ++ be4 h4

example : strB "abc" = [97, 98, 99] := by decide

example : sha1 (strB "abc") =
    [169, 153, 62, 54, 71, 6, 129, 106, 186, 62, 37, 113, 120, 80, 194, 108, 156, 208, 216, 157] := by
  decide

/-! ## Decimal and octal rendering (fmt.Sprintf "%d" / "%o") -/

/-- Decimal digit bytes of `n`, most significant first (fuel-driven). -/
def decDigitsAux : Nat → Nat → List Nat
  | 0, _ => []
  | fuel + 1, n => if n < 10 then [48 + n] else decDigitsAux fuel (n / 10) ++ [48 + n % 10]

/-- ASCII bytes of `fmt.Sprintf("%d", n)`. -/
def decimal (n : Nat) : List Nat := decDigitsAux (n + 1) n

/-- Octal digit bytes of `n`, most significant first (fuel-driven). -/
def octDigitsAux : Nat → Nat → List Nat
  | 0, _ => []
  | fuel + 1, n => if n < 8 then [48 + n] else octDigitsAux fuel (n / 8) ++ [48 + n % 8]

/-- ASCII bytes of `fmt.Sprintf("%o", n)` (no leading zeros). -/
def octStr (n : Nat) : List Nat := octDigitsAux (n + 1) n

example : decimal 100 = strB "100" := by decide
example : octStr 33188 = strB "100644" := by decide
example : octStr 16384 = strB "40000" := by decide

/-! ## Byte-string comparison and searching (Go `<` on strings, strings.IndexByte) -/

/-- Go's byte-wise lexicographic `<` on strings. -/
def lexLt : List Nat → List Nat → Bool
  | [], [] => false
  | [], _ :: _ => true
  | _ :: _, [] => false
  | a :: as, b :: bs => a < b || (a = b && lexLt as bs)

/-- Index of the first occurrence of byte `b` (`strings.IndexByte` /
`bytes.IndexByte`, with `none` for Go's `-1`). -/
def findByte (b : Nat) : List Nat → Option Nat
  | [] => none
  | c :: rest => if c = b then some 0 else (findByte b rest).map (· + 1)

/-- Split a byte string at newline bytes; a trailing newline yields a final
empty segment (the line structure of a commit payload). -/
def splitLines : List Nat → List (List Nat)
  | [] => [[]]
  | c :: rest =>
    let r := splitLines rest
    if c = 10 then [] :: r else (c :: r.headD []) :: r.tail

example : splitLines (strB "ab\ncd\n") = [strB "ab", strB "cd", []] := by decide

/-! ## Object store (.git/objects)

The store maps a digest to the serialized object bytes written at
`objects/<hex[:2]>/<hex[2:]>` (the hex path is a bijective rendering of
the digest, so the map is keyed by the raw digest).  `writes` counts the
`os.WriteFile` calls actually performed: in the source every put calls
`os.WriteFile` unconditionally (lines 55-62, 125-131, 172-178, 262-271);
the `os.Stat` existence check only guards `os.MkdirAll` for the bucket
directory. -/

structure Store where
  entries : List (List Nat × List Nat)
  writes : Nat
deriving DecidableEq

def emptyStore : Store := ⟨[], 0⟩

/-- Write-or-replace an entry under key `k` (file-system write semantics). -/
def setEntry : List (List Nat × List Nat) → List Nat → List Nat → List (List Nat × List Nat)
  | [], k, v => [(k, v)]
  | (k', v') :: rest, k, v =>
    if k' = k then (k, v) :: rest else (k', v') :: setEntry rest k v

/-- Read the entry under key `k`. -/
def getEntry : List (List Nat × List Nat) → List Nat → Option (List Nat)
  | [], _ => none
  | (k', v') :: rest, k => if k' = k then some v' else getEntry rest k

/-- One store put as the source performs it: `os.WriteFile` runs
unconditionally, so the entry is (re)written and a write is logged. -/
def storePut (st : Store) (d : List Nat) (bytes : List Nat) : Store :=
  { entries := setEntry st.entries d bytes, writes := st.writes + 1 }

/-! ## Serialized objects

`serializedObject` is the spec's formula (§3 "Serialized Object"):
`"{kind} {byte_length}\0{payload}"`, digested and stored as a whole.
The code-side serializations below are each transcribed from the
corresponding `fmt.Sprintf` in the source. -/

/-- Spec-side definition: `"{kind} {byte_length}\0" ++ payload`. -/
def serializedObject (kind : List Nat) (payload : List Nat) : List Nat :=
  kind ++ [32] ++ decimal payload.length ++ [0] ++ payload

/-- Blob serialization of `hash_file` (line 40-41):
`"blob %d\x00"` header followed by the file contents. -/
def blobSer (contents : List Nat) : List Nat :=
  strB "blob " ++ decimal contents.length ++ [0] ++ contents

/-- `hash_file` (lines 33-65): serialize the contents as a blob, digest the
serialized bytes, write them to the store, return the raw digest. -/
def hash_file_store (contents : List Nat) (st : Store) : Store × List Nat :=
  let ser := blobSer contents
  let d := sha1 ser
  (storePut st d ser, d)

/-- The `hash-object -w` command (lines 244-272): identical serialization,
digest and write as `hash_file`. -/
def hash_object_store (contents : List Nat) (st : Store) : Store × List Nat :=
  let ser := blobSer contents
  let d := sha1 ser
  (storePut st d ser, d)

/-- The `cat-file -p` command's payload extraction (lines 228-236): read the
stored bytes for a digest and drop everything through the first null
byte (`bytes.IndexByte(contents, 0) + 1`; Go's `-1` makes the index `0`
when no null byte exists). -/
def catFileData (st : Store) (d : List Nat) : Option (List Nat) :=
  match getEntry st.entries d with
  | none => none
  | some contents =>
    some (contents.drop (match findByte 0 contents with
      | some i => i + 1
      | none => 0))

example : sha1 (blobSer (strB "hello\nworld")) =
    [157, 183, 223, 2, 182, 2, 102, 38, 96, 126, 217, 100, 62, 162, 74, 249, 220, 9, 194, 201] := by
  decide

example : sha1 (List.replicate 100 97) =
    [127, 144, 0, 37, 122, 73, 24, 215, 7, 38, 85, 234, 70, 133, 64, 205, 203, 212, 46, 12] := by
  decide

/-! ## Tree entries and the entry sort of `hash_dir` (lines 99-113)

Each entry is the byte string `fmt.Sprintf("%o %s\x00%s", mode, name, sha)`.
`sort.Slice` orders entries by Go `<` on `entry[strings.IndexByte(entry, ' ')+1:]`,
i.e. on the `name ++ [0] ++ sha` suffix.  `sort.Slice` only guarantees a
permutation ordered by the comparator; it is modelled by insertion sort with
the same comparator, which produces exactly such a permutation (and the
unique one whenever all comparator keys are distinct). -/

structure TEntry where
  mode : Nat
  name : List Nat
  sha : List Nat
deriving DecidableEq

/-- `fmt.Sprintf("%o %s\x00%s", mode, name, sha)` (line 99). -/
def encEntry (e : TEntry) : List Nat :=
  octStr e.mode ++ [32] ++ e.name ++ [0] ++ e.sha

/-- The comparator key `entry[strings.IndexByte(entry, ' ')+1:]` (line 102). -/
def entryKey (s : List Nat) : List Nat :=
  s.drop (match findByte 32 s with
    | some i => i + 1
    | none => 0)

/-- The `less` closure handed to `sort.Slice` (lines 101-103). -/
def entryLess (a b : List Nat) : Bool := lexLt (entryKey a) (entryKey b)

/-- Insert into a list sorted by `entryLess`. -/
def insertE (a : List Nat) : List (List Nat) → List (List Nat)
  | [] => [a]
  | b :: bs => if entryLess b a then b :: insertE a bs else a :: b :: bs

/-- The entry sort of `hash_dir` (model of `sort.Slice` at lines 101-103). -/
def sortE : List (List Nat) → List (List Nat)
  | [] => []
  | a :: as => insertE a (sortE as)

/-- The tail of `hash_dir` (lines 101-133): sort the collected entry strings,
concatenate them into the tree payload, prepend the `"tree %d\x00"` header,
digest the whole, write it to the store and return the raw digest. -/
def treeSer (payload : List Nat) : List Nat :=
  strB "tree " ++ decimal payload.length ++ [0] ++ payload

def encode_tree_store (entryStrs : List (List Nat)) (st : Store) : Store × List Nat :=
  let payload := (sortE entryStrs).flatten
  let d := sha1 (treeSer payload)
  (storePut st d (treeSer payload), d)

/-! ## The recursive directory walk `hash_dir` (lines 67-134)

A directory is a list of `(name, node)` children in `os.ReadDir` order.  A
non-directory child's `os.ReadFile` bytes are stored in the node: for a
regular file its contents, for a symlink (or other non-directory type that
`os.ReadFile` can read) the bytes of its target — `DirEntry.IsDir` is false
for a symlink, so `hash_dir` takes the `hash_file` branch on it.  Recursion
is fuel-driven (structural in the fuel) so that the definitions evaluate;
fuel is consumed only when descending into a subdirectory, and any fuel
at least the directory-tree depth gives the function's value. -/

inductive FsNode where
  | file (contents : List Nat)
  | link (targetContents : List Nat)
  | dir (children : List (List Nat × FsNode))

/-- `hash_dir` and its per-child body: skip `.git`, recurse on directories
(mode `0o040000`), store non-directories as blobs (mode `0o100644`),
record the entry string, then sort, encode and store the tree. -/
def hashNode : Nat → FsNode → Store → Store × List Nat
  | _, .file c, st => hash_file_store c st
  | _, .link c, st => hash_file_store c st
  | 0, .dir _, st => (st, [])
  | f + 1, .dir ch, st =>
    let acc := ch.foldl (fun acc child =>
      if child.fst = strB ".git" then acc
      else
        let r := hashNode f child.snd acc.fst
        let mode : Nat := match child.snd with
          | .dir _ => 16384
          | _ => 33188
        (r.fst, acc.snd ++ [octStr mode ++ [32] ++ child.fst ++ [0] ++ r.snd])) (st, [])
    encode_tree_store acc.snd acc.fst

/-- The loop body of `hash_dir` (lines 73-100) as a standalone fold step,
for stating properties of single children. -/
def childStep (f : Nat) (acc : Store × List (List Nat)) (child : List Nat × FsNode) :
    Store × List (List Nat) :=
  if child.fst = strB ".git" then acc
  else
    let r := hashNode f child.snd acc.fst
    let mode : Nat := match child.snd with
      | .dir _ => 16384
      | _ => 33188
    (r.fst, acc.snd ++ [octStr mode ++ [32] ++ child.fst ++ [0] ++ r.snd])

theorem hashNode_dir (f : Nat) (ch : List (List Nat × FsNode)) (st : Store) :
    hashNode (f + 1) (.dir ch) st =
      encode_tree_store (ch.foldl (childStep f) (st, [])).snd
        (ch.foldl (childStep f) (st, [])).fst := rfl

/-- The tree payload `hash_dir` digests for a directory with children `ch`,
starting from store `st` (sorted entry strings, concatenated). -/
def treePayload (f : Nat) (ch : List (List Nat × FsNode)) (st : Store) : List Nat :=
  (sortE (ch.foldl (childStep f) (st, [])).snd).flatten

/-! ## `commit_tree` (lines 136-182) -/

/-- The `author` string built at line 146: note it already starts with the
keyword `author`. -/
def authorStr (ts : Nat) (tz : List Nat) : List Nat :=
  strB "author Bocchi! The Rock <bocchi@therock.com> " ++ decimal ts ++ [32] ++ tz

/-- The `committer` string built at line 147, likewise already prefixed. -/
def committerStr (ts : Nat) (tz : List Nat) : List Nat :=
  strB "committer Bocchi! The Rock <bocchi@therock.com> " ++ decimal ts ++ [32] ++ tz

/-- The commit payload written into the `commit` buffer (lines 137-153):
`"tree %s\n"`, optional `"parent %s\n"`, `"author %s\n"` and
`"committer %s\n"` applied to the already-prefixed strings above, then
`"\n%s\n"` applied to a non-empty message.  The wall-clock timestamp and
timezone offset are parameters. -/
def commit_payload (t p m : List Nat) (ts : Nat) (tz : List Nat) : List Nat :=
  (strB "tree " ++ t ++ [10])
  ++ (if p = [] then [] else strB "parent " ++ p ++ [10])
  ++ (strB "author " ++ authorStr ts tz ++ [10])
  ++ (strB "committer " ++ committerStr ts tz ++ [10])
  ++ (if m = [] then [] else [10] ++ m ++ [10])

/-- `commit_tree`: the digest is `sha1.Sum(commit.Bytes())` taken at line 155,
*before* the `"commit %d\x00"` header is prepended (line 160-163); the
store receives header ++ payload under that digest. -/
def commit_tree_store (t p m : List Nat) (ts : Nat) (tz : List Nat) (st : Store) :
    Store × List Nat :=
  let payload := commit_payload t p m ts tz
  let d := sha1 payload
  let ser := strB "commit " ++ decimal payload.length ++ [0] ++ payload
  (storePut st d ser, d)

/-! ## The `ls-tree` payload parser (lines 301-319)

The loop slices `contents[:space_index]`, `contents[:null_index]` and
`contents[:20]`; when `IndexByte` returns `-1` or fewer than 20 bytes
remain, the Go slice expression panics (slice bounds out of range) and the
process crashes.  `TreeParse.panic` models that crash.  The loop is
fuel-driven; each iteration consumes at least one byte, so fuel equal to
the payload length always suffices. -/

inductive TreeParse where
  | panic : TreeParse
  | ok : List (List Nat) → TreeParse
deriving DecidableEq

/-- One iteration of the `ls-tree` loop body (lines 306-319): slice the mode
up to the first space, the name up to the next null byte, then exactly 20
raw digest bytes, and continue on the remainder via `next`; a failed
`IndexByte` search or fewer than 20 remaining bytes is the Go slice-bounds
panic. -/
def lsTreeStep (next : List Nat → TreeParse) (contents : List Nat) : TreeParse :=
  match findByte 32 contents with
  | none => .panic
  | some si =>
    let c1 := contents.drop (si + 1)
    match findByte 0 c1 with
    | none => .panic
    | some ni =>
      let c2 := c1.drop (ni + 1)
      if c2.length < 20 then .panic
      else
        match next (c2.drop 20) with
        | .panic => .panic
        | .ok rest => .ok (c1.take ni :: rest)

def lsTreeLoop : Nat → List Nat → TreeParse
  | _, [] => .ok []
  | 0, _ :: _ => .panic
  | fuel + 1, contents => lsTreeStep (lsTreeLoop fuel) contents

/-- Parse a tree payload the way the `ls-tree` command's loop does,
returning the entry names in order (or the modelled panic). -/
def lsTreeParse (payload : List Nat) : TreeParse := lsTreeLoop payload.length payload

/-! ## Lemma bank: digits, byte search, list slicing, store, lines -/

theorem decDigitsAux_mem {fuel n d : Nat} (h : d ∈ decDigitsAux fuel n) :
    48 ≤ d ∧ d ≤ 57 := by
  induction fuel generalizing n with
  | zero => simp [decDigitsAux] at h
  | succ f ih =>
    simp only [decDigitsAux] at h
    split at h
    · simp at h
      omega
    · rcases List.mem_append.1 h with h' | h'
      · exact ih h'
      · simp at h'
        have : n % 10 < 10 := Nat.mod_lt _ (by omega)
        omega

theorem decimal_mem {n d : Nat} (h : d ∈ decimal n) : 48 ≤ d ∧ d ≤ 57 :=
  decDigitsAux_mem h

theorem octDigitsAux_mem {fuel n d : Nat} (h : d ∈ octDigitsAux fuel n) :
    48 ≤ d ∧ d ≤ 55 := by
  induction fuel generalizing n with
  | zero => simp [octDigitsAux] at h
  | succ f ih =>
    simp only [octDigitsAux] at h
    split at h
    · simp at h
      omega
    · rcases List.mem_append.1 h with h' | h'
      · exact ih h'
      · simp at h'
        have : n % 8 < 8 := Nat.mod_lt _ (by omega)
        omega

theorem octStr_mem {n d : Nat} (h : d ∈ octStr n) : 48 ≤ d ∧ d ≤ 55 :=
  octDigitsAux_mem h

theorem zero_not_mem_decimal (n : Nat) : 0 ∉ decimal n := fun h =>
  by have := decimal_mem h; omega

theorem nl_not_mem_decimal (n : Nat) : 10 ∉ decimal n := fun h =>
  by have := decimal_mem h; omega

theorem space_not_mem_octStr (n : Nat) : 32 ∉ octStr n := fun h =>
  by have := octStr_mem h; omega

theorem zero_not_mem_octStr (n : Nat) : 0 ∉ octStr n := fun h =>
  by have := octStr_mem h; omega

theorem findByte_eq_none {b : Nat} {l : List Nat} (h : b ∉ l) :
    findByte b l = none := by
  induction l with
  | nil => rfl
  | cons c rest ih =>
    simp only [findByte]
    rw [if_neg (by rintro rfl; exact h (List.mem_cons_self c rest)),
      ih (fun hm => h (List.mem_cons_of_mem c hm))]
    rfl

theorem findByte_append_self {b : Nat} {a : List Nat} (h : b ∉ a) (c : List Nat) :
    findByte b (a ++ b :: c) = some a.length := by
  induction a with
  | nil => simp [findByte]
  | cons x rest ih =>
    have hx : x ≠ b := by rintro rfl; exact h (List.mem_cons_self x rest)
    have hr : b ∉ rest := fun hm => h (List.mem_cons_of_mem x hm)
    simp [findByte, hx, ih hr]

theorem drop_append_cons (a : List Nat) (x : Nat) (c : List Nat) :
    (a ++ x :: c).drop (a.length + 1) = c := by
  induction a with
  | nil => rfl
  | cons y rest ih => simp [ih]

theorem take_append_cons (a : List Nat) (x : Nat) (c : List Nat) :
    (a ++ x :: c).take a.length = a := by
  induction a with
  | nil => rfl
  | cons y rest ih => simp [ih]

theorem setEntry_idem (l : List (List Nat × List Nat)) (k v : List Nat) :
    setEntry (setEntry l k v) k v = setEntry l k v := by
  induction l with
  | nil => simp [setEntry]
  | cons p rest ih =>
    by_cases h : p.fst = k
    · simp [setEntry, h]
    · simp [setEntry, h, ih]

theorem getEntry_setEntry_self (l : List (List Nat × List Nat)) (k v : List Nat) :
    getEntry (setEntry l k v) k = some v := by
  induction l with
  | nil => simp [setEntry, getEntry]
  | cons p rest ih =>
    by_cases h : p.fst = k
    · simp [setEntry, h, getEntry]
    · simp [setEntry, h, getEntry, ih]

theorem splitLines_no_nl {a : List Nat} (h : 10 ∉ a) : splitLines a = [a] := by
  induction a with
  | nil => rfl
  | cons c rest ih =>
    have hc : c ≠ 10 := by rintro rfl; exact h (List.mem_cons_self _ rest)
    have hr : 10 ∉ rest := fun hm => h (List.mem_cons_of_mem c hm)
    simp [splitLines, hc, ih hr]

theorem splitLines_append_nl {a : List Nat} (h : 10 ∉ a) (b : List Nat) :
    splitLines (a ++ 10 :: b) = a :: splitLines b := by
  induction a with
  | nil => simp [splitLines]
  | cons c rest ih =>
    have hc : c ≠ 10 := by rintro rfl; exact h (List.mem_cons_self _ rest)
    have hr : 10 ∉ rest := fun hm => h (List.mem_cons_of_mem c hm)
    simp [splitLines, hc, ih hr]

/-! ## Lemma bank: the byte-wise order and the entry sort -/

theorem lexLt_irrefl (a : List Nat) : lexLt a a = false := by
  induction a with
  | nil => rfl
  | cons x rest ih => simp [lexLt, ih]

theorem lexLt_trans : ∀ {a b c : List Nat},
    lexLt a b = true → lexLt b c = true → lexLt a c = true
  | [], [], _, h, _ => by simp [lexLt] at h
  | [], _ :: _, [], _, h => by simp [lexLt] at h
  | [], _ :: _, _ :: _, _, _ => rfl
  | _ :: _, [], _, h, _ => by simp [lexLt] at h
  | _ :: _, _ :: _, [], _, h => by simp [lexLt] at h
  | x :: as, y :: bs, z :: cs, h1, h2 => by
    simp only [lexLt, Bool.or_eq_true, decide_eq_true_eq,
      Bool.and_eq_true] at h1 h2 ⊢
    rcases h1 with h1 | ⟨rfl, h1⟩
    · rcases h2 with h2 | ⟨rfl, _⟩
      · exact Or.inl (Nat.lt_trans h1 h2)
      · exact Or.inl h1
    · rcases h2 with h2 | ⟨rfl, h2⟩
      · exact Or.inl h2
      · exact Or.inr ⟨rfl, lexLt_trans h1 h2⟩

theorem lexLt_tri : ∀ (a b : List Nat),
    lexLt a b = true ∨ lexLt b a = true ∨ a = b
  | [], [] => Or.inr (Or.inr rfl)
  | [], _ :: _ => Or.inl rfl
  | _ :: _, [] => Or.inr (Or.inl rfl)
  | x :: as, y :: bs => by
    rcases Nat.lt_trichotomy x y with h | h | h
    · exact Or.inl (by simp [lexLt, h])
    · subst h
      rcases lexLt_tri as bs with h' | h' | h'
      · exact Or.inl (by simp [lexLt, h'])
      · exact Or.inr (Or.inl (by simp [lexLt, h']))
      · exact Or.inr (Or.inr (by rw [h']))
    · exact Or.inr (Or.inl (by simp [lexLt, h]))

theorem lexLt_asymm {a b : List Nat} (h : lexLt a b = true) : lexLt b a = false := by
  by_contra h'
  have hba : lexLt b a = true := by
    cases hab : lexLt b a
    · exact absurd hab h'
    · rfl
  have := lexLt_trans h hba
  rw [lexLt_irrefl] at this
  cases this

theorem lexLt_false_trans {a b c : List Nat}
    (hba : lexLt b a = false) (hcb : lexLt c b = false) : lexLt c a = false := by
  cases hca : lexLt c a
  · rfl
  · exfalso
    rcases lexLt_tri a b with h | h | h
    · have := lexLt_trans hca h
      rw [hcb] at this
      cases this
    · rw [h] at hba
      cases hba
    · subst h
      rw [hca] at hcb
      cases hcb

theorem mem_insertE {x a : List Nat} : ∀ {l : List (List Nat)},
    x ∈ insertE a l → x = a ∨ x ∈ l
  | [], h => Or.inl (by simpa [insertE] using h)
  | b :: bs, h => by
    simp only [insertE] at h
    cases hv : entryLess b a
    · rw [if_neg (by simp [hv])] at h
      rcases List.mem_cons.1 h with h1 | h1
      · exact Or.inl h1
      · exact Or.inr h1
    · rw [if_pos (by simp [hv])] at h
      rcases List.mem_cons.1 h with h1 | h1
      · exact Or.inr (h1 ▸ List.mem_cons_self b bs)
      · rcases mem_insertE h1 with h2 | h2
        · exact Or.inl h2
        · exact Or.inr (List.mem_cons_of_mem b h2)

theorem insertE_perm (a : List Nat) : ∀ (l : List (List Nat)),
    List.Perm (insertE a l) (a :: l)
  | [] => List.Perm.refl _
  | b :: bs => by
    simp only [insertE]
    split
    · exact List.Perm.trans (List.Perm.cons b (insertE_perm a bs)) (List.Perm.swap a b bs)
    · exact List.Perm.refl _

theorem sortE_perm : ∀ (l : List (List Nat)), List.Perm (sortE l) l
  | [] => List.Perm.refl _
  | a :: as =>
    List.Perm.trans (insertE_perm a (sortE as)) (List.Perm.cons a (sortE_perm as))

theorem insertE_pairwise {a : List Nat} {l : List (List Nat)}
    (h : List.Pairwise (fun x y => entryLess y x = false) l) :
    List.Pairwise (fun x y => entryLess y x = false) (insertE a l) := by
  induction l with
  | nil => simp [insertE]
  | cons b bs ih =>
    rcases List.pairwise_cons.1 h with ⟨hb, hbs⟩
    simp only [insertE]
    split
    · rename_i hba
      refine List.pairwise_cons.2 ⟨?_, ih hbs⟩
      intro x hx
      rcases mem_insertE hx with rfl | hx'
      · exact lexLt_asymm hba
      · exact hb x hx'
    · rename_i hba
      have hba' : entryLess b a = false := by
        cases hv : entryLess b a
        · rfl
        · exact absurd hv hba
      refine List.pairwise_cons.2 ⟨?_, h⟩
      intro x hx
      rcases List.mem_cons.1 hx with rfl | hx'
      · exact hba'
      · exact lexLt_false_trans hba' (hb x hx')

theorem sortE_pairwise : ∀ (l : List (List Nat)),
    List.Pairwise (fun x y => entryLess y x = false) (sortE l)
  | [] => List.Pairwise.nil
  | _ :: as => insertE_pairwise (sortE_pairwise as)

/-! ## Lemma bank: entry keys and the name-order bridge -/

theorem not_mem_append2 {x : Nat} {a b : List Nat} (ha : x ∉ a) (hb : x ∉ b) :
    x ∉ a ++ b := fun h => (List.mem_append.1 h).elim ha hb

theorem encEntry_eq (e : TEntry) :
    encEntry e = octStr e.mode ++ 32 :: (e.name ++ 0 :: e.sha) := by
  simp [encEntry]

theorem entryKey_oct (m : Nat) (rest : List Nat) :
    entryKey (octStr m ++ 32 :: rest) = rest := by
  unfold entryKey
  rw [findByte_append_self (space_not_mem_octStr m) rest]
  exact drop_append_cons _ _ _

theorem entryKey_encEntry (e : TEntry) :
    entryKey (encEntry e) = e.name ++ 0 :: e.sha := by
  rw [encEntry_eq, entryKey_oct]

theorem lexLt_name_bridge : ∀ {n1 n2 : List Nat} (s1 s2 : List Nat),
    0 ∉ n1 → 0 ∉ n2 → n1 ≠ n2 →
    lexLt (n1 ++ 0 :: s1) (n2 ++ 0 :: s2) = lexLt n1 n2
  | [], [], _, _, _, _, hne => absurd rfl hne
  | [], c :: _, s1, s2, _, h2, _ => by
    have hc : c ≠ 0 := by rintro rfl; exact h2 (List.mem_cons_self _ _)
    have hc' : 0 < c := Nat.pos_of_ne_zero hc
    simp [lexLt, hc']
  | c :: _, [], s1, s2, h1, _, _ => by
    have hc : c ≠ 0 := by rintro rfl; exact h1 (List.mem_cons_self _ _)
    have hlt : ¬ c < 0 := Nat.not_lt_zero c
    simp [lexLt, hlt, hc]
  | c1 :: n1', c2 :: n2', s1, s2, h1, h2, hne => by
    have h1' : 0 ∉ n1' := fun hm => h1 (List.mem_cons_of_mem _ hm)
    have h2' : 0 ∉ n2' := fun hm => h2 (List.mem_cons_of_mem _ hm)
    rcases Nat.lt_trichotomy c1 c2 with h | h | h
    · have hne12 : c1 ≠ c2 := by omega
      simp [lexLt, h]
    · subst h
      have hne' : n1' ≠ n2' := fun hh => hne (by rw [hh])
      simp [lexLt, lexLt_name_bridge s1 s2 h1' h2' hne']
    · have hlt : ¬ c1 < c2 := by omega
      have hne12 : c1 ≠ c2 := by omega
      simp [lexLt, hlt, hne12]

theorem entryLess_encEntry {e1 e2 : TEntry} (h1 : 0 ∉ e1.name) (h2 : 0 ∉ e2.name)
    (hne : e1.name ≠ e2.name) :
    entryLess (encEntry e1) (encEntry e2) = lexLt e1.name e2.name := by
  unfold entryLess
  rw [entryKey_encEntry, entryKey_encEntry, lexLt_name_bridge _ _ h1 h2 hne]

/-- The name field of an encoded entry: the comparator key up to the null
byte separating the name from the raw digest. -/
def entryName (s : List Nat) : List Nat :=
  (entryKey s).takeWhile (fun x => x != 0)

theorem takeWhile_until_zero {n : List Nat} (h : 0 ∉ n) (s : List Nat) :
    (n ++ 0 :: s).takeWhile (fun x => x != 0) = n := by
  induction n with
  | nil => simp
  | cons c rest ih =>
    have hc : c ≠ 0 := by rintro rfl; exact h (List.mem_cons_self _ _)
    have hr : 0 ∉ rest := fun hm => h (List.mem_cons_of_mem _ hm)
    simp [List.takeWhile_cons, hc, ih hr]

theorem entryName_encEntry {e : TEntry} (h : 0 ∉ e.name) :
    entryName (encEntry e) = e.name := by
  unfold entryName
  rw [entryKey_encEntry, takeWhile_until_zero h]

/-! ## Claim C4: tree entries sorted by name -/

/-- C4: for any sequence of tree entries with pairwise-distinct names, in
arbitrary order, the sorted entry list produced by the `hash_dir` sort
(whose concatenation is the tree payload) lists the entries in
non-decreasing byte-wise order of their name fields. -/
theorem C4_entries_sorted_by_name (es : List TEntry)
    (hnf : ∀ e ∈ es, 0 ∉ e.name)
    (_hnd : List.Pairwise (fun a b => a.name ≠ b.name) es) :
    List.Pairwise (fun x y => lexLt (entryName y) (entryName x) = false)
      (sortE (es.map encEntry)) := by
  have hp := sortE_pairwise (es.map encEntry)
  refine hp.imp_of_mem ?_
  intro x y hx hy hxy
  have hx' : x ∈ es.map encEntry := (sortE_perm _).mem_iff.1 hx
  have hy' : y ∈ es.map encEntry := (sortE_perm _).mem_iff.1 hy
  rcases List.mem_map.1 hx' with ⟨a, ha, rfl⟩
  rcases List.mem_map.1 hy' with ⟨b, hb, rfl⟩
  rw [entryName_encEntry (hnf a ha), entryName_encEntry (hnf b hb)]
  by_cases hab : b.name = a.name
  · rw [hab, lexLt_irrefl]
  · rw [← entryLess_encEntry (hnf b hb) (hnf a ha) hab]
    exact hxy

/-- Witness for C4 at a concrete two-entry input given in reverse name order. -/
theorem C4_witness :
    List.Pairwise (fun x y => lexLt (entryName y) (entryName x) = false)
      (sortE ([⟨33188, strB "b", List.replicate 20 3⟩,
               ⟨33188, strB "a", List.replicate 20 7⟩].map encEntry)) :=
  C4_entries_sorted_by_name _ (by decide) (by decide)

/-! ## Claim C3: store writes -/

/-- C3 counterexample: a put whose digest entry already exists in the store
is *not* skipped — the source calls `os.WriteFile` unconditionally, so the
store state (its write log) changes; the claim that the write is skipped
fails at this concrete input. -/
theorem C3_second_put_not_skipped_counterexample :
    storePut (storePut emptyStore (strB "d") (strB "v")) (strB "d") (strB "v")
      ≠ storePut emptyStore (strB "d") (strB "v") := by decide

/-- C3 (amended): a second put of the same digest and bytes performs the
write again (it is re-executed, not skipped), but the observable entry map
of the store is unchanged: two puts leave the same entries as one. -/
theorem C3_put_twice_entries_idempotent (st : Store) (d bytes : List Nat) :
    (storePut (storePut st d bytes) d bytes).entries = (storePut st d bytes).entries
    ∧ (storePut (storePut st d bytes) d bytes).writes = (storePut st d bytes).writes + 1 := by
  refine ⟨?_, rfl⟩
  show setEntry (setEntry st.entries d bytes) d bytes = setEntry st.entries d bytes
  exact setEntry_idem _ _ _

/-! ## Claim C6: duplicate entry names -/

/-- C6 counterexample: two entries sharing the name `"a"` are both encoded —
the tree object is written to the store (entries become non-empty) and the
payload contains both duplicate-name entries; no `DuplicateEntryError`
exists in the code. -/
theorem C6_duplicate_name_counterexample :
    ((encode_tree_store [encEntry ⟨33188, strB "a", List.replicate 20 1⟩,
        encEntry ⟨33188, strB "a", List.replicate 20 2⟩] emptyStore).fst.entries ≠ [])
    ∧ (sortE [encEntry ⟨33188, strB "a", List.replicate 20 1⟩,
        encEntry ⟨33188, strB "a", List.replicate 20 2⟩]).flatten
      = encEntry ⟨33188, strB "a", List.replicate 20 1⟩
        ++ encEntry ⟨33188, strB "a", List.replicate 20 2⟩ := by
  constructor
  · decide
  · decide

/-- C6 (amended): `encode_tree` performs no duplicate-name check: every
entry list, duplicates included, is sorted into a permutation of itself
and the resulting tree object is unconditionally written to the store. -/
theorem C6_no_duplicate_check (es : List (List Nat)) (st : Store) :
    List.Perm (sortE es) es
    ∧ (encode_tree_store es st).fst.entries
        = setEntry st.entries ((encode_tree_store es st).snd)
            (treeSer (sortE es).flatten)
    ∧ (encode_tree_store es st).fst.writes = st.writes + 1 :=
  ⟨sortE_perm es, rfl, rfl⟩

/-! ## Claim C7: blob round trip -/

theorem blobSer_eq (c : List Nat) :
    blobSer c = (strB "blob " ++ decimal c.length) ++ 0 :: c := by
  simp [blobSer]

theorem zero_not_mem_blob_header (n : Nat) : 0 ∉ strB "blob " ++ decimal n :=
  not_mem_append2 (by decide) (zero_not_mem_decimal n)

theorem findByte_blobSer (c : List Nat) :
    findByte 0 (blobSer c) = some (strB "blob " ++ decimal c.length).length := by
  rw [blobSer_eq]
  exact findByte_append_self (zero_not_mem_blob_header c.length) c

/-- C7: storing any byte content `C` as a blob (`hash-object -w`) and then
extracting the payload of the returned digest the way `cat-file -p` does
yields `C` unchanged, byte for byte. -/
theorem C7_blob_roundtrip (st : Store) (c : List Nat) :
    catFileData (hash_object_store c st).fst (hash_object_store c st).snd = some c := by
  show catFileData (storePut st (sha1 (blobSer c)) (blobSer c)) (sha1 (blobSer c)) = some c
  unfold catFileData storePut
  simp only [getEntry_setEntry_self, findByte_blobSer]
  rw [blobSer_eq, drop_append_cons]

/-! ## Claim C10: non-directory entries -/

/-- C10: a directory child that is not a subdirectory — a symlink (whose
`os.ReadFile` yields its target's bytes) just like a regular file — is
handled by the blob branch of `hash_dir`: its bytes are stored as a blob
and the entry is recorded with regular-file mode `100644` (`0o100644`). -/
theorem hashNode_link (f : Nat) (c : List Nat) (st : Store) :
    hashNode f (.link c) st = hash_file_store c st := by cases f <;> rfl

theorem hashNode_file (f : Nat) (c : List Nat) (st : Store) :
    hashNode f (.file c) st = hash_file_store c st := by cases f <;> rfl

theorem C10_non_dir_treated_as_regular_file (f : Nat) (st : Store) (es : List (List Nat))
    (name c : List Nat) (h : name ≠ strB ".git") :
    childStep f (st, es) (name, FsNode.link c) = childStep f (st, es) (name, FsNode.file c)
    ∧ childStep f (st, es) (name, FsNode.link c)
      = (storePut st (sha1 (blobSer c)) (blobSer c),
         es ++ [octStr 33188 ++ [32] ++ name ++ [0] ++ sha1 (blobSer c)]) := by
  constructor
  · simp [childStep, hashNode_link, hashNode_file]
  · simp [childStep, h, hashNode_link, hash_file_store]

/-- Witness for C10 at a concrete symlink child. -/
theorem C10_witness :
    childStep 0 (emptyStore, []) (strB "ln", FsNode.link (strB "x"))
      = childStep 0 (emptyStore, []) (strB "ln", FsNode.file (strB "x"))
    ∧ childStep 0 (emptyStore, []) (strB "ln", FsNode.link (strB "x"))
      = (storePut emptyStore (sha1 (blobSer (strB "x"))) (blobSer (strB "x")),
         [] ++ [octStr 33188 ++ [32] ++ strB "ln" ++ [0] ++ sha1 (blobSer (strB "x"))]) :=
  C10_non_dir_treated_as_regular_file 0 emptyStore [] (strB "ln") (strB "x") (by decide)

/-! ## Claim C1: what bytes are digested -/

theorem blobSer_serializedObject (c : List Nat) :
    blobSer c = serializedObject (strB "blob") c := by
  have h : strB "blob " = strB "blob" ++ [32] := by decide
  simp [blobSer, serializedObject, h]

theorem treeSer_serializedObject (p : List Nat) :
    treeSer p = serializedObject (strB "tree") p := by
  have h : strB "tree " = strB "tree" ++ [32] := by decide
  simp [treeSer, serializedObject, h]

theorem encode_tree_store_snd (es : List (List Nat)) (st : Store) :
    (encode_tree_store es st).snd = sha1 (treeSer ((sortE es).flatten)) := rfl

theorem C1_blob_digest (c : List Nat) (st : Store) :
    (hash_file_store c st).snd = sha1 (serializedObject (strB "blob") c) := by
  show sha1 (blobSer c) = sha1 (serializedObject (strB "blob") c)
  rw [blobSer_serializedObject]

theorem C1_tree_digest (f : Nat) (ch : List (List Nat × FsNode)) (st : Store) :
    (hashNode (f + 1) (.dir ch) st).snd
      = sha1 (serializedObject (strB "tree") (treePayload f ch st)) := by
  rw [hashNode_dir, encode_tree_store_snd]
  unfold treePayload
  rw [treeSer_serializedObject]

theorem C1_blob_digest_not_payload_alone :
    (hash_file_store (strB "x") emptyStore).snd ≠ sha1 (strB "x") := by decide

theorem C1_commit_digest_payload_only (t p m : List Nat) (ts : Nat) (tz : List Nat)
    (st : Store) :
    (commit_tree_store t p m ts tz st).snd = sha1 (commit_payload t p m ts tz) := rfl

theorem C1_commit_digest_not_serialized :
    (commit_tree_store (strB "b5ea78b78579c2ffad30bd9e1b78000dbfcbcc74") [] (strB "init")
        1700000000 (strB "-0700") emptyStore).snd
      ≠ sha1 (serializedObject (strB "commit")
          (commit_payload (strB "b5ea78b78579c2ffad30bd9e1b78000dbfcbcc74") [] (strB "init")
            1700000000 (strB "-0700"))) := by decide

/-- C1: `hash_file` and `hash_dir` digest the full serialized byte sequence
(header then payload) — and for blobs the digest provably differs from the
digest of the payload alone — but `commit_tree` digests the *payload
alone*: `sha1.Sum(commit.Bytes())` runs at line 155 before the
`"commit %d\x00"` header is prepended at lines 160-163, so at the concrete
failing input the returned commit digest differs from the SHA-1 of the full
serialized commit object. -/
theorem C1_digest_of_serialized_bytes :
    (∀ c st, (hash_file_store c st).snd = sha1 (serializedObject (strB "blob") c))
    ∧ (∀ f ch st, (hashNode (f + 1) (.dir ch) st).snd
        = sha1 (serializedObject (strB "tree") (treePayload f ch st)))
    ∧ ((hash_file_store (strB "x") emptyStore).snd ≠ sha1 (strB "x"))
    ∧ (∀ t p m ts tz st, (commit_tree_store t p m ts tz st).snd
        = sha1 (commit_payload t p m ts tz))
    ∧ ((commit_tree_store (strB "b5ea78b78579c2ffad30bd9e1b78000dbfcbcc74") [] (strB "init")
          1700000000 (strB "-0700") emptyStore).snd
        ≠ sha1 (serializedObject (strB "commit")
            (commit_payload (strB "b5ea78b78579c2ffad30bd9e1b78000dbfcbcc74") [] (strB "init")
              1700000000 (strB "-0700")))) :=
  ⟨C1_blob_digest, C1_tree_digest, C1_blob_digest_not_payload_alone,
   C1_commit_digest_payload_only, C1_commit_digest_not_serialized⟩

/-! ## Claim C2: the commit payload lines -/

/-- C2: at the failing input (tree digest `b5ea…`, no parent, message
`"init"`), the commit payload has the `tree` line, no `parent` line, the
blank line and `"init\n"` — but the `author` and `committer` keywords are
written twice (`"author author …"`, `"committer committer …"`) because
lines 146-149 wrap the already-prefixed strings in `"author %s\n"` /
`"committer %s\n"`, so no line is prefixed exactly once with its
keyword. -/
theorem C2_author_keyword_doubled :
    commit_payload (strB "b5ea78b78579c2ffad30bd9e1b78000dbfcbcc74") [] (strB "init")
        1700000000 (strB "-0700") =
      strB "tree b5ea78b78579c2ffad30bd9e1b78000dbfcbcc74\n"
      ++ strB "author author Bocchi! The Rock <bocchi@therock.com> 1700000000 -0700\n"
      ++ strB "committer committer Bocchi! The Rock <bocchi@therock.com> 1700000000 -0700\n"
      ++ strB "\ninit\n" := by decide

/-! ## Claim C8: the demo directory -/

/-- The children of the C8 scenario directory: one regular file `a.txt`
with content `"x"` and one empty subdirectory `b`. -/
def demoChildren : List (List Nat × FsNode) :=
  [(strB "a.txt", FsNode.file (strB "x")), (strB "b", FsNode.dir [])]

/-- C8: hashing the demo directory yields a tree with exactly two entries:
`a.txt` with regular-file mode `100644` preceding `b` with directory mode
`40000` in byte order; the `ls-tree` parse of the payload returns exactly
the two names; the empty subdirectory `b` hashes to the tree object
`"tree 0\x00"`, which is written to the store under `b`'s digest and whose
(empty) payload parses to zero entries. -/
theorem C8_demo_directory :
    (sortE ((demoChildren.foldl (childStep 1) (emptyStore, [])).snd)
      = [strB "100644 a.txt" ++ [0] ++ sha1 (blobSer (strB "x")),
         strB "40000 b" ++ [0] ++ sha1 (strB "tree 0" ++ [0])])
    ∧ lsTreeParse (treePayload 1 demoChildren emptyStore)
        = .ok [strB "a.txt", strB "b"]
    ∧ (hashNode 1 (FsNode.dir []) emptyStore).snd = sha1 (strB "tree 0" ++ [0])
    ∧ getEntry (hashNode 2 (FsNode.dir demoChildren) emptyStore).fst.entries
        (sha1 (strB "tree 0" ++ [0])) = some (strB "tree 0" ++ [0])
    ∧ lsTreeParse [] = .ok [] := by
  refine ⟨by decide, by decide, by decide, by decide, by decide⟩

/-! ## Claim C9: empty commit message -/

theorem nl_not_mem_authorLine (ts : Nat) (tz : List Nat) (htz : 10 ∉ tz) :
    (10 : Nat) ∉ strB "author " ++ authorStr ts tz := by
  intro hm
  rcases List.mem_append.1 hm with h | h
  · exact absurd h (by decide)
  · unfold authorStr at h
    rcases List.mem_append.1 h with h | h
    · rcases List.mem_append.1 h with h | h
      · rcases List.mem_append.1 h with h | h
        · exact absurd h (by decide)
        · exact nl_not_mem_decimal ts h
      · exact absurd h (by decide)
    · exact htz h

theorem nl_not_mem_committerLine (ts : Nat) (tz : List Nat) (htz : 10 ∉ tz) :
    (10 : Nat) ∉ strB "committer " ++ committerStr ts tz := by
  intro hm
  rcases List.mem_append.1 hm with h | h
  · exact absurd h (by decide)
  · unfold committerStr at h
    rcases List.mem_append.1 h with h | h
    · rcases List.mem_append.1 h with h | h
      · rcases List.mem_append.1 h with h | h
        · exact absurd h (by decide)
        · exact nl_not_mem_decimal ts h
      · exact absurd h (by decide)
    · exact htz h

/-- C9: with an empty message, the commit payload consists of exactly the
`tree` line, the optional `parent` line, the author line and the committer
line, each terminated by a single newline: splitting at newlines yields no
blank interior line, no message section, and a final empty segment — the
payload ends with the newline terminating the committer line. -/
theorem C9_empty_message_ends_at_committer (t p tz : List Nat) (ts : Nat)
    (ht : 10 ∉ t) (hp : 10 ∉ p) (htz : 10 ∉ tz) :
    splitLines (commit_payload t p [] ts tz) =
      [strB "tree " ++ t] ++ (if p = [] then [] else [strB "parent " ++ p])
      ++ [strB "author " ++ authorStr ts tz, strB "committer " ++ committerStr ts tz, []] := by
  have hTree : (10 : Nat) ∉ strB "tree " ++ t := not_mem_append2 (by decide) ht
  have hPar : (10 : Nat) ∉ strB "parent " ++ p := not_mem_append2 (by decide) hp
  have hA := nl_not_mem_authorLine ts tz htz
  have hC := nl_not_mem_committerLine ts tz htz
  by_cases hpe : p = []
  · subst hpe
    have hpay : commit_payload t [] [] ts tz
        = (strB "tree " ++ t) ++ 10 :: ((strB "author " ++ authorStr ts tz)
          ++ 10 :: ((strB "committer " ++ committerStr ts tz) ++ 10 :: ([] : List Nat))) := by
      simp [commit_payload]
    rw [hpay, splitLines_append_nl hTree, splitLines_append_nl hA, splitLines_append_nl hC]
    simp [splitLines]
  · have hpay : commit_payload t p [] ts tz
        = (strB "tree " ++ t) ++ 10 :: ((strB "parent " ++ p)
          ++ 10 :: ((strB "author " ++ authorStr ts tz)
          ++ 10 :: ((strB "committer " ++ committerStr ts tz) ++ 10 :: ([] : List Nat)))) := by
      simp [commit_payload, hpe]
    rw [hpay, splitLines_append_nl hTree, splitLines_append_nl hPar,
      splitLines_append_nl hA, splitLines_append_nl hC]
    simp [splitLines, hpe]

/-- Witness for C9 at a concrete tree digest, no parent and a concrete
timestamp and timezone. -/
theorem C9_witness :
    splitLines (commit_payload (strB "ab") [] [] 5 (strB "-0700")) =
      [strB "tree " ++ strB "ab"]
      ++ (if ([] : List Nat) = [] then [] else [strB "parent " ++ ([] : List Nat)])
      ++ [strB "author " ++ authorStr 5 (strB "-0700"),
          strB "committer " ++ committerStr 5 (strB "-0700"), []] :=
  C9_empty_message_ends_at_committer (strB "ab") [] (strB "-0700") 5
    (by decide) (by decide) (by decide)

/-! ## Lemma bank: the ls-tree loop -/

theorem lsTreeLoop_nil (fuel : Nat) : lsTreeLoop fuel [] = .ok [] := by
  cases fuel <;> rfl

theorem lsTreeLoop_ne (fuel : Nat) (c : List Nat) (hc : c ≠ []) :
    lsTreeLoop (fuel + 1) c = lsTreeStep (lsTreeLoop fuel) c := by
  cases c with
  | nil => exact absurd rfl hc
  | cons x xs => rfl

theorem encEntry_append (e : TEntry) (R : List Nat) :
    encEntry e ++ R = octStr e.mode ++ 32 :: (e.name ++ 0 :: (e.sha ++ R)) := by
  simp [encEntry]

theorem lsTreeLoop_fuel_congr : ∀ (f1 : Nat) {f2 : Nat} {c : List Nat},
    c.length ≤ f1 → c.length ≤ f2 → lsTreeLoop f1 c = lsTreeLoop f2 c
  | 0, f2, c, h1, _ => by
    have : c = [] := List.length_eq_zero.1 (Nat.le_zero.1 h1)
    subst this
    rw [lsTreeLoop_nil, lsTreeLoop_nil]
  | f1 + 1, f2, c, h1, h2 => by
    cases c with
    | nil => rw [lsTreeLoop_nil, lsTreeLoop_nil]
    | cons x xs =>
      cases f2 with
      | zero => simp at h2
      | succ f2' =>
        rw [lsTreeLoop_ne f1 _ (by simp), lsTreeLoop_ne f2' _ (by simp)]
        unfold lsTreeStep
        rcases h32 : findByte 32 (x :: xs) with _ | si
        · rfl
        · simp only []
          rcases h0 : findByte 0 ((x :: xs).drop (si + 1)) with _ | ni
          · rfl
          · simp only []
            split
            · rfl
            · have hlen : ((((x :: xs).drop (si + 1)).drop (ni + 1)).drop 20).length ≤ f1
                  ∧ ((((x :: xs).drop (si + 1)).drop (ni + 1)).drop 20).length ≤ f2' := by
                simp only [List.length_drop, List.length_cons] at h1 h2 ⊢
                omega
              rw [lsTreeLoop_fuel_congr f1 hlen.1 hlen.2]

theorem lsTreeStep_entry (next : List Nat → TreeParse) (e : TEntry) (R : List Nat)
    (hn : 0 ∉ e.name) (hs : e.sha.length = 20) :
    lsTreeStep next (encEntry e ++ R) =
      match next R with
      | .panic => .panic
      | .ok rest => .ok (e.name :: rest) := by
  have h32 := findByte_append_self (space_not_mem_octStr e.mode) (e.name ++ 0 :: (e.sha ++ R))
  have h0 := findByte_append_self hn (e.sha ++ R)
  have hlen : ¬ (e.sha ++ R).length < 20 := by
    rw [List.length_append, hs]
    omega
  have hdrop : (e.sha ++ R).drop 20 = R := by
    rw [← hs]
    exact List.drop_left _ _
  rw [encEntry_append]
  unfold lsTreeStep
  rw [h32]
  simp only [drop_append_cons, h0, take_append_cons]
  rw [if_neg hlen, hdrop]

theorem encEntry_length_pos (e : TEntry) : 1 ≤ (encEntry e).length := by
  rw [encEntry_eq]
  simp
  omega

theorem lsTreeParse_entries : ∀ (es : List TEntry) (R : List Nat),
    (∀ e ∈ es, 0 ∉ e.name ∧ e.sha.length = 20) →
    lsTreeParse ((es.map encEntry).flatten ++ R) =
      match lsTreeParse R with
      | .panic => .panic
      | .ok ns => .ok (es.map (fun e => e.name) ++ ns)
  | [], R, _ => by
    simp only [List.map_nil, List.flatten_nil, List.nil_append]
    cases h : lsTreeParse R
    · rfl
    · simp
  | e :: es', R, h => by
    have he := h e (List.mem_cons_self _ _)
    have hes : ∀ e' ∈ es', 0 ∉ e'.name ∧ e'.sha.length = 20 :=
      fun e' hm => h e' (List.mem_cons_of_mem _ hm)
    have hassoc : (((e :: es').map encEntry).flatten : List Nat) ++ R
        = encEntry e ++ ((es'.map encEntry).flatten ++ R) := by
      simp
    obtain ⟨k, hk⟩ : ∃ k,
        (encEntry e ++ ((es'.map encEntry).flatten ++ R)).length = k + 1 := by
      refine ⟨(encEntry e ++ ((es'.map encEntry).flatten ++ R)).length - 1, ?_⟩
      have hpos := encEntry_length_pos e
      simp only [List.length_append]
      omega
    have hle : ((es'.map encEntry).flatten ++ R).length ≤ k := by
      have hpos := encEntry_length_pos e
      rw [List.length_append] at hk
      omega
    unfold lsTreeParse
    rw [hassoc, hk, lsTreeLoop_ne k _ (by simp [encEntry_eq]),
      lsTreeStep_entry _ e _ he.1 he.2,
      lsTreeLoop_fuel_congr k hle (Nat.le_refl _),
      show lsTreeLoop ((es'.map encEntry).flatten ++ R).length
          ((es'.map encEntry).flatten ++ R)
        = lsTreeParse ((es'.map encEntry).flatten ++ R) from rfl,
      lsTreeParse_entries es' R hes]
    cases hR : lsTreeLoop R.length R <;>
      simp [show lsTreeParse R = lsTreeLoop R.length R from rfl, hR]

theorem lsTreeParse_truncated_entry (e : TEntry) (k : Nat)
    (hn : 0 ∉ e.name) (hs : e.sha.length = 20)
    (hk1 : 1 ≤ k) (hk2 : k < (encEntry e).length) :
    lsTreeParse ((encEntry e).take k) = .panic := by
  have hlenc : (encEntry e).length
      = (octStr e.mode).length + 1 + (e.name.length + 1 + 20) := by
    rw [encEntry_eq]
    simp [hs]
    omega
  rw [encEntry_eq, List.take_append_eq_append_take]
  by_cases hA : k ≤ (octStr e.mode).length
  · have h0' : k - (octStr e.mode).length = 0 := by omega
    rw [h0', List.take_zero, List.append_nil]
    have hTlen : ((octStr e.mode).take k).length = k := by
      rw [List.length_take]
      omega
    have hne : (octStr e.mode).take k ≠ [] := by
      intro hnil
      rw [hnil] at hTlen
      simp at hTlen
      omega
    obtain ⟨j, hj⟩ : ∃ j, k = j + 1 := ⟨k - 1, by omega⟩
    unfold lsTreeParse
    rw [hTlen, hj, lsTreeLoop_ne j _ (hj ▸ hne)]
    unfold lsTreeStep
    rw [findByte_eq_none (fun hm => space_not_mem_octStr e.mode (List.take_subset _ _ hm))]
  · have hA' : (octStr e.mode).length < k := by omega
    rw [List.take_of_length_le (by omega)]
    obtain ⟨j, hjk⟩ : ∃ j, k - (octStr e.mode).length = j + 1 :=
      ⟨k - (octStr e.mode).length - 1, by omega⟩
    have hjb : j < e.name.length + 21 := by
      rw [hlenc] at hk2
      omega
    rw [hjk, List.take_succ_cons, List.take_append_eq_append_take]
    by_cases hB : j ≤ e.name.length
    · have h0' : j - e.name.length = 0 := by omega
      rw [h0', List.take_zero, List.append_nil]
      have hTlen : ((octStr e.mode) ++ 32 :: e.name.take j).length
          = ((octStr e.mode).length + (e.name.take j).length) + 1 := by
        simp
        omega
      unfold lsTreeParse
      rw [hTlen, lsTreeLoop_ne _ _ (by simp)]
      unfold lsTreeStep
      rw [findByte_append_self (space_not_mem_octStr e.mode)]
      simp only [drop_append_cons]
      rw [findByte_eq_none (fun hm => hn (List.take_subset _ _ hm))]
    · have hB' : e.name.length < j := by omega
      rw [List.take_of_length_le (by omega)]
      obtain ⟨i, hi⟩ : ∃ i, j - e.name.length = i + 1 :=
        ⟨j - e.name.length - 1, by omega⟩
      have hib : i < 20 := by omega
      rw [hi, List.take_succ_cons]
      have hTlen : ((octStr e.mode) ++ 32 :: (e.name ++ 0 :: e.sha.take i)).length
          = ((octStr e.mode).length + e.name.length + (e.sha.take i).length + 1) + 1 := by
        simp
        omega
      unfold lsTreeParse
      rw [hTlen, lsTreeLoop_ne _ _ (by simp)]
      unfold lsTreeStep
      rw [findByte_append_self (space_not_mem_octStr e.mode)]
      simp only [drop_append_cons]
      rw [findByte_append_self hn]
      simp only [drop_append_cons]
      have hc2len : (e.sha.take i).length < 20 := by
        rw [List.length_take]
        omega
      rw [if_pos hc2len]

/-! ## Claim C5: the ls-tree parser on truncated input -/

/-- C5 counterexample: on the truncated payload `"100644 a"` (mode, space,
then a name never terminated by a null byte) the `ls-tree` loop reaches
`contents[:null_index]` with `null_index = -1` and panics — the modelled
Go slice-bounds crash — instead of failing with a `TruncatedTreeError`
(no such error exists anywhere in the code). -/
theorem C5_truncated_input_panics_counterexample :
    lsTreeParse (strB "100644 a") = TreeParse.panic := by decide

/-- C5 (amended): the parser does consume entries sequentially — mode up to
the first space, name up to the next null byte, then exactly 20 raw digest
bytes — returning the names of any well-formed entry sequence; but on every
payload that ends strictly inside a trailing entry it crashes with the Go
slice-bounds panic rather than failing with a `TruncatedTreeError`. -/
theorem C5_sequential_consumption_and_panic_on_truncation :
    (∀ es : List TEntry, (∀ e ∈ es, 0 ∉ e.name ∧ e.sha.length = 20) →
      lsTreeParse ((es.map encEntry).flatten) = .ok (es.map (fun e => e.name)))
    ∧ (∀ (es : List TEntry) (e : TEntry) (k : Nat),
        (∀ e' ∈ es, 0 ∉ e'.name ∧ e'.sha.length = 20) →
        0 ∉ e.name → e.sha.length = 20 → 1 ≤ k → k < (encEntry e).length →
        lsTreeParse ((es.map encEntry).flatten ++ (encEntry e).take k) = .panic) := by
  constructor
  · intro es h
    have := lsTreeParse_entries es [] h
    rw [List.append_nil] at this
    rw [this, show lsTreeParse [] = .ok [] from rfl]
    simp
  · intro es e k hes hn hs hk1 hk2
    rw [lsTreeParse_entries es _ hes, lsTreeParse_truncated_entry e k hn hs hk1 hk2]

/-- Witness for C5 at one well-formed two-entry payload and one payload
ending inside its final entry. -/
theorem C5_witness :
    (lsTreeParse (([⟨33188, strB "a", List.replicate 20 5⟩,
        ⟨16384, strB "b", List.replicate 20 6⟩] : List TEntry).map encEntry).flatten
      = .ok [strB "a", strB "b"])
    ∧ lsTreeParse ((([⟨33188, strB "a", List.replicate 20 5⟩] : List TEntry).map
          encEntry).flatten ++ (encEntry ⟨16384, strB "b", List.replicate 20 6⟩).take 9)
        = .panic :=
  ⟨C5_sequential_consumption_and_panic_on_truncation.1 _ (by decide),
   C5_sequential_consumption_and_panic_on_truncation.2 _ _ 9 (by decide) (by decide)
     (by decide) (by decide) (by decide)⟩
